import Mathlib

/-!
Verification of the task-scheduling core of the `webServer` repository:
the priority queue (`src/queue.rs`), the scheduler dispatch loop and retry
policy (`src/scheduler.rs`), and the HTTP submission boundary
(`src/web.rs`), shallowly embedded in Lean.

Modelling conventions:
* `Uuid` (from the `uuid` crate) and `serde_json::Value` payloads are
  opaque to the core (never introspected), so both are embedded as `ℕ`.
* `u8` fields (`priority`, `retry_count`) are embedded as `ℕ`.  The core
  only compares priorities against the constant threshold `100` and
  increments `retry_count` under the guard `retry_count < MAX_RETRIES`,
  so no `u8` overflow is reachable and no `% 256` is needed.
* `std::collections::BinaryHeap` is an external-crate collaborator; it is
  embedded as the array binary max-heap it is documented and implemented
  to be: `push` appends and sifts up, `pop` swaps the last element into
  the root, shrinks, and sifts down.  The sift loops are written with an
  explicit `fuel` bound on the number of iterations; callers always pass
  enough fuel (the hole index strictly decreases / increases), so the
  bound is never hit.  Among equal-priority tasks the arrangement may
  differ from the Rust heap, which is unobservable: ties are unspecified.
* The `tokio::sync::Mutex` around the heap serializes `push`/`pop`; the
  embedding models the serialized (sequential) behaviour of the queue.
* The persistence collaborator `save_data_to_db` is modelled as an oracle
  `store : Payload → Bool` (`true` = `Ok`), and the timing constructs
  (`tokio::spawn`, `sleep`) are dropped: one `schedulerStep` captures the
  state effect of one iteration of `run_scheduler`'s loop.
-/

namespace WebServer

/-- Opaque model of `uuid::Uuid`: the core only generates and logs ids. -/
abbrev Uuid := Nat

/-- Opaque model of a `serde_json::Value` payload: never introspected by
the core, only handed to the persistence collaborator. -/
abbrev Payload := Nat

/-- Model of `Task` from `src/queue.rs` (lines 10–19): id, payload, priority
(`u8`, higher = more urgent) and retry count (`u8`). -/
structure Task where
  id : Uuid
  payload : Payload
  priority : Nat
  retry_count : Nat
deriving DecidableEq, Repr, Inhabited

/-- The task `t` with its retry count set to `n` and every other field
unchanged (notation for stating the scheduler's re-enqueue behaviour). -/
def Task.withRetry (t : Task) (n : Nat) : Task := { t with retry_count := n }

/-- Model of `PartialEq for Task` (`src/queue.rs` lines 23–27): two tasks are
equal exactly when their priorities are equal.  This is Rust's `==` on
tasks; it is deliberately *not* registered as a `BEq` instance, since it
differs from structural equality (which the meta-level multiset lemmas
use). -/
def Task.beq (a b : Task) : Bool := a.priority == b.priority

/-- Model of `Ord for Task` (`src/queue.rs` lines 41–45): comparison delegates to
the priorities. -/
def Task.cmp (a b : Task) : Ordering := compare a.priority b.priority

/-- Rust's derived `a <= b` for `Task`, i.e. `a.cmp(b) != Greater`; this
is the comparison the binary heap uses. -/
def Task.le (a b : Task) : Bool := Task.cmp a b != Ordering.gt

/-! ### The heap (model of `std::collections::BinaryHeap<Task>`) -/

namespace BinaryHeap

/-- Index of the parent of heap slot `i` in the array layout
(slot `0` is the root; the children of `i` are `2*i+1` and `2*i+2`). -/
def parent (i : Nat) : Nat := (i - 1) / 2

/-- Total read of heap slot `i`; out-of-range reads return `default`.
All lemmas use it under an in-range hypothesis. -/
def slot (a : Array Task) (i : Nat) : Task := a.getD i default

/-- The sift-up loop of `BinaryHeap::push`: while the element at the hole
`i` is greater than its parent, swap it with the parent.  `fuel` bounds
the number of iterations; since the hole index strictly decreases, any
`fuel ≥ i` makes the bound unreachable. -/
def siftUp : Nat → Array Task → Nat → Array Task
  | 0, a, _ => a
  | fuel+1, a, i =>
    if h : 0 < i ∧ i < a.size then
      if Task.le (a.get ⟨i, h.2⟩)
          (a.get ⟨parent i, by simp only [parent]; omega⟩) then a
      else siftUp fuel
        (a.swap ⟨i, h.2⟩ ⟨parent i, by simp only [parent]; omega⟩) (parent i)
    else a

/-- Model of `BinaryHeap::push`: append the new element and sift it up from the
last position. -/
def push (a : Array Task) (t : Task) : Array Task :=
  siftUp a.size (a.push t) a.size

/-- The sift-down loop of `BinaryHeap::pop`: while the element at the
hole `i` is smaller than its greater child (the right child on ties, as
in the Rust heap), swap it down.  `fuel` bounds the number of
iterations; since the hole index strictly increases and stays below the
size, any `fuel ≥ a.size - i` makes the bound unreachable. -/
def siftDown : Nat → Array Task → Nat → Array Task
  | 0, a, _ => a
  | fuel+1, a, i =>
    if hl : 2*i+1 < a.size then
      if hr : 2*i+2 < a.size then
        if Task.le (a.get ⟨2*i+1, hl⟩) (a.get ⟨2*i+2, hr⟩) then
          if Task.le (a.get ⟨2*i+2, hr⟩) (a.get ⟨i, by omega⟩) then a
          else siftDown fuel (a.swap ⟨i, by omega⟩ ⟨2*i+2, hr⟩) (2*i+2)
        else
          if Task.le (a.get ⟨2*i+1, hl⟩) (a.get ⟨i, by omega⟩) then a
          else siftDown fuel (a.swap ⟨i, by omega⟩ ⟨2*i+1, hl⟩) (2*i+1)
      else
        if Task.le (a.get ⟨2*i+1, hl⟩) (a.get ⟨i, by omega⟩) then a
        else siftDown fuel (a.swap ⟨i, by omega⟩ ⟨2*i+1, hl⟩) (2*i+1)
    else a

/-- Model of `BinaryHeap::pop`: on a non-empty heap, return the root, move the
last element into its place, shrink by one, and sift the new root down;
on an empty heap return `none`. -/
def popMax (a : Array Task) : Option Task × Array Task :=
  if h : 0 < a.size then
    (some (a.get ⟨0, h⟩),
      siftDown ((a.swap ⟨0, h⟩ ⟨a.size - 1, by omega⟩).pop).size
        ((a.swap ⟨0, h⟩ ⟨a.size - 1, by omega⟩).pop) 0)
  else (none, a)

/-- The max-heap invariant of the array layout: every non-root slot is
at most its parent (comparing priorities, as `Ord for Task` does). -/
def HeapInv (a : Array Task) : Prop :=
  ∀ i, i < a.size → 0 < i → (slot a i).priority ≤ (slot a (parent i)).priority

instance (a : Array Task) : Decidable (HeapInv a) := by
  unfold HeapInv
  exact Nat.decidableBallLT _ _

/-- Multiset of tasks stored in the heap array. -/
def mset (a : Array Task) : Multiset Task := (a.toList : Multiset Task)

/-- Loop invariant of the sift-up pass, at hole index `i`: the heap
invariant holds at every slot other than `i`, and the children of `i`
(if any) are already bounded by the parent of `i`. -/
def UpInv (a : Array Task) (i : Nat) : Prop :=
  (∀ j, j < a.size → 0 < j → j ≠ i →
    (slot a j).priority ≤ (slot a (parent j)).priority) ∧
  (0 < i → ∀ c, c < a.size → parent c = i →
    (slot a c).priority ≤ (slot a (parent i)).priority)

/-- Loop invariant of the sift-down pass, at hole index `i`: the heap
invariant holds at every slot whose parent is not `i`, and the children
of `i` are bounded by the parent of `i` (when `i` is not the root). -/
def DownInv (a : Array Task) (i : Nat) : Prop :=
  (∀ j, j < a.size → 0 < j → parent j ≠ i →
    (slot a j).priority ≤ (slot a (parent j)).priority) ∧
  (0 < i → ∀ c, c < a.size → parent c = i →
    (slot a c).priority ≤ (slot a (parent i)).priority)

end BinaryHeap

/-! ### The queue (`src/queue.rs` lines 49–74) -/

/-- Model of `PriorityQueue` from `src/queue.rs`: a `BinaryHeap<Task>` behind a
`tokio::sync::Mutex`.  The mutex serializes `push`/`pop`, so the model
is the underlying heap and the operations act on it sequentially. -/
structure PriorityQueue where
  heap : Array Task
deriving DecidableEq, Repr

/-- Model of `PriorityQueue::new`: a new empty queue. -/
def PriorityQueue.new : PriorityQueue := ⟨#[]⟩

/-- Model of `PriorityQueue::push`: lock the heap and push the task.  Total: it
always succeeds, for every task, and returns no value (in the model, the
updated queue is the state after the call). -/
def PriorityQueue.push (q : PriorityQueue) (t : Task) : PriorityQueue :=
  ⟨BinaryHeap.push q.heap t⟩

/-- Model of `PriorityQueue::pop`: lock the heap and pop; `none` when empty.  The
pair is (returned value, queue state after the call). -/
def PriorityQueue.pop (q : PriorityQueue) : Option Task × PriorityQueue :=
  ((BinaryHeap.popMax q.heap).1, ⟨(BinaryHeap.popMax q.heap).2⟩)

/-- Multiset of tasks currently stored in the queue. -/
def PriorityQueue.tasks (q : PriorityQueue) : Multiset Task :=
  BinaryHeap.mset q.heap

/-- Well-formedness of a queue state: its array satisfies the max-heap
invariant.  `new` satisfies it and `push`/`pop` preserve it. -/
def PriorityQueue.WF (q : PriorityQueue) : Prop :=
  BinaryHeap.HeapInv q.heap

instance (q : PriorityQueue) : Decidable q.WF := by
  unfold PriorityQueue.WF
  infer_instance

/-! ### The scheduler (`src/scheduler.rs`) -/

/-- Constant `MAX_RETRIES` from `src/scheduler.rs` line 8: the retry ceiling. -/
def MAX_RETRIES : Nat := 3

/-- Model of `handle_quick_task` (`src/scheduler.rs` lines 15–19): attempt to
persist the task's payload; the result is returned to the caller, which
owns the retry decision.  `store` is the persistence-collaborator oracle
(`true` = `Ok`). -/
def handle_quick_task (task : Task) (store : Payload → Bool) : Bool :=
  store task.payload

/-- Model of `handle_slow_task` (`src/scheduler.rs` lines 26–33): sleep (dropped
from the model), attempt to persist the payload, and merely log a
failure.  The returned outcome is only logged; the function has no
access to the queue and returns nothing to the dispatch loop. -/
def handle_slow_task (task : Task) (store : Payload → Bool) : Bool :=
  store task.payload

/-- Observable effect of one iteration of `run_scheduler`'s loop:
either the queue was empty (the loop sleeps 1 s), or a task was handed
to `handle_slow_task` in a spawned tokio task (`stored` is its eventual
persistence outcome, which is only logged), or a task was handled by
`handle_quick_task` (`stored` its outcome, `requeued` the re-enqueued
task on a retried failure, `none` otherwise). -/
inductive Dispatch where
  | idle
  | slow (t : Task) (stored : Bool)
  | fast (t : Task) (stored : Bool) (requeued : Option Task)
deriving DecidableEq, Repr

/-- One iteration of the dispatch loop of `run_scheduler`
(`src/scheduler.rs` lines 40–66): pop; if a task is returned, route by
`priority > 100` to the slow path (spawned, no further effect on the
queue) or the fast path (on failure, increment `retry_count` and push
the task back while `retry_count < MAX_RETRIES`, else drop it). -/
def schedulerStep (store : Payload → Bool) (q : PriorityQueue) :
    PriorityQueue × Dispatch :=
  match q.pop with
  | (none, q') => (q', .idle)
  | (some t, q') =>
    if 100 < t.priority then
      (q', .slow t (handle_slow_task t store))
    else if handle_quick_task t store then
      (q', .fast t true none)
    else if t.retry_count < MAX_RETRIES then
      (q'.push { t with retry_count := t.retry_count + 1 },
        .fast t false (some { t with retry_count := t.retry_count + 1 }))
    else
      (q', .fast t false none)

/-- The loop of `run_scheduler` iterated `n` times (the Rust loop is
infinite; `n` is the number of observed iterations), returning the final
queue state and the per-iteration dispatch records in order. -/
def run_scheduler (store : Payload → Bool) (q : PriorityQueue) :
    Nat → PriorityQueue × List Dispatch
  | 0 => (q, [])
  | n+1 =>
    ((run_scheduler store (schedulerStep store q).1 n).1,
      (schedulerStep store q).2 ::
        (run_scheduler store (schedulerStep store q).1 n).2)

/-! ### The submission boundary (`src/web.rs`) -/

/-- Model of `CreateTaskPayload` (`src/web.rs` lines 25–28): the deserialized
request body. -/
structure CreateTaskPayload where
  payload : Payload
  priority : Nat
deriving DecidableEq, Repr

/-- Status code returned by the handler; `create_task` always answers
`202 Accepted` (submission is fire-and-forget). -/
inductive StatusCode where
  | accepted
deriving DecidableEq, Repr

/-- Model of `create_task` (`src/web.rs` lines 37–53): build a `Task` from the
caller-supplied payload and priority, with a freshly generated id
(`Uuid::new_v4()`, modelled by the `new_id` argument since generation is
random) and `retry_count = 0`, push it, and answer `ACCEPTED`. -/
def create_task (q : PriorityQueue) (new_id : Uuid)
    (body : CreateTaskPayload) : PriorityQueue × StatusCode :=
  let task : Task :=
    { id := new_id, payload := body.payload, priority := body.priority,
      retry_count := 0 }
  (q.push task, .accepted)

/-! ### Repeated pops -/

/-- Pop the queue repeatedly (at most `fuel` times), collecting the
returned tasks until the queue signals empty. -/
def drain : Nat → PriorityQueue → List Task
  | 0, _ => []
  | fuel+1, q =>
    match q.pop with
    | (some t, q') => t :: drain fuel q'
    | (none, _) => []

/-- Push every task of `ts`, in order, onto the empty queue. -/
def pushAll (ts : List Task) : PriorityQueue :=
  ts.foldl PriorityQueue.push PriorityQueue.new

/-! ## Lemmas: `Task` ordering -/

theorem Task.le_iff {a b : Task} :
    Task.le a b = true ↔ a.priority ≤ b.priority := by
  unfold Task.le Task.cmp
  cases hc : compare a.priority b.priority with
  | lt =>
    have := Nat.compare_eq_lt.mp hc
    exact iff_of_true (by decide) (by omega)
  | eq =>
    have := Nat.compare_eq_eq.mp hc
    exact iff_of_true (by decide) (by omega)
  | gt =>
    have := Nat.compare_eq_gt.mp hc
    exact iff_of_false (by decide) (by omega)

/-! ## Lemmas: the array layout -/

namespace BinaryHeap

theorem parent_le (i : Nat) : parent i ≤ i := by
  simp only [parent]; omega

theorem parent_lt {i : Nat} (h : 0 < i) : parent i < i := by
  simp only [parent]; omega

theorem parent_left (i : Nat) : parent (2*i+1) = i := by
  simp only [parent]; omega

theorem parent_right (i : Nat) : parent (2*i+2) = i := by
  simp only [parent]; omega

theorem child_cases {i j : Nat} (h0 : 0 < j) (h : parent j = i) :
    j = 2*i+1 ∨ j = 2*i+2 := by
  simp only [parent] at h; omega

theorem slot_eq_getElem {a : Array Task} {i : Nat} (h : i < a.size) :
    slot a i = a[i] := by
  simp [slot, Array.getD, h]

theorem slot_oob {a : Array Task} {i : Nat} (h : ¬ i < a.size) :
    slot a i = default := by
  simp [slot, Array.getD, h]

theorem slot_eq_get {a : Array Task} {i : Nat} (h : i < a.size) :
    slot a i = a.get ⟨i, h⟩ := by
  rw [Array.get_eq_getElem]
  exact slot_eq_getElem h

theorem le_get_iff {a : Array Task} {i j : Nat} (hi : i < a.size)
    (hj : j < a.size) :
    (Task.le (a.get ⟨i, hi⟩) (a.get ⟨j, hj⟩) = true) ↔
      (slot a i).priority ≤ (slot a j).priority := by
  rw [slot_eq_get hi, slot_eq_get hj, Task.le_iff]

theorem slot_swap {a : Array Task} {i j : Nat} (hi : i < a.size)
    (hj : j < a.size) (k : Nat) :
    slot (a.swap ⟨i, hi⟩ ⟨j, hj⟩) k =
      if k = i then slot a j else if k = j then slot a i else slot a k := by
  have hs : (a.swap ⟨i, hi⟩ ⟨j, hj⟩).size = a.size := Array.size_swap a _ _
  by_cases hk : k < a.size
  · have hk2 : k < (a.swap ⟨i, hi⟩ ⟨j, hj⟩).size := by rw [hs]; exact hk
    rw [slot_eq_getElem hk2, Array.getElem_swap]
    simp only [Fin.val_mk]
    split_ifs
    · exact (slot_eq_getElem hj).symm
    · exact (slot_eq_getElem hi).symm
    · exact (slot_eq_getElem hk).symm
  · have hk2 : ¬ k < (a.swap ⟨i, hi⟩ ⟨j, hj⟩).size := by rw [hs]; exact hk
    have hki : k ≠ i := by omega
    have hkj : k ≠ j := by omega
    rw [slot_oob hk2, slot_oob hk, if_neg hki, if_neg hkj]

theorem slot_push (a : Array Task) (t : Task) (k : Nat) :
    slot (a.push t) k =
      if k < a.size then slot a k else if k = a.size then t else default := by
  by_cases hk : k < a.size
  · have hk2 : k < (a.push t).size := by rw [Array.size_push]; omega
    rw [slot_eq_getElem hk2, Array.getElem_push, dif_pos hk, if_pos hk,
      slot_eq_getElem hk]
  · by_cases hke : k = a.size
    · have hk2 : k < (a.push t).size := by rw [Array.size_push]; omega
      rw [slot_eq_getElem hk2, Array.getElem_push, dif_neg hk, if_neg hk,
        if_pos hke]
    · have hk2 : ¬ k < (a.push t).size := by rw [Array.size_push]; omega
      rw [slot_oob hk2, if_neg hk, if_neg hke]

theorem slot_pop {a : Array Task} {k : Nat} (h : k < a.size - 1) :
    slot a.pop k = slot a k := by
  have h1 : k < a.pop.size := by simp [Array.size_pop]; omega
  have h2 : k < a.size := by omega
  simp only [slot, Array.getD, h1, h2, dif_pos]
  exact Array.getElem_pop a k h1

/-! ## Lemmas: heap contents as a multiset -/

theorem mset_push (a : Array Task) (t : Task) :
    mset (a.push t) = t ::ₘ mset a := by
  simp only [mset, Array.push_toList]
  rw [Multiset.cons_coe, Multiset.coe_eq_coe]
  exact List.perm_append_singleton t a.toList

theorem mset_swap {a : Array Task} {i j : Nat} (hi : i < a.size)
    (hj : j < a.size) :
    mset (a.swap ⟨i, hi⟩ ⟨j, hj⟩) = mset a := by
  simp only [mset]
  rw [Multiset.coe_eq_coe, Array.toList_swap, List.perm_iff_count]
  intro x
  have hi2 : i < a.toList.length := by simpa using hi
  have hj2 : j < a.toList.length := by simpa using hj
  have hgi : a.get ⟨i, hi⟩ = a.toList[i] := by
    rw [Array.get_eq_getElem]
    exact (Array.getElem_toList hi).symm
  have hgj : a.get ⟨j, hj⟩ = a.toList[j] := by
    rw [Array.get_eq_getElem]
    exact (Array.getElem_toList hj).symm
  have hci : a.toList[i] = x → 1 ≤ List.count x a.toList := fun hx =>
    List.count_pos_iff.mpr (hx ▸ List.getElem_mem hi2)
  have hcj : a.toList[j] = x → 1 ≤ List.count x a.toList := fun hx =>
    List.count_pos_iff.mpr (hx ▸ List.getElem_mem hj2)
  simp only [Fin.val_mk]
  by_cases hij : i = j
  · subst hij
    rw [List.set_set, List.count_set _ _ _ _ hi2]
    simp only [hgi, beq_iff_eq]
    by_cases e1 : a.toList[i] = x
    · have := hci e1
      simp only [e1, if_pos]
      omega
    · rw [if_neg e1]
      omega
  · have hset1 : j < (a.toList.set i (a.get ⟨j, hj⟩)).length := by
      simpa using hj2
    rw [List.count_set _ _ _ _ hset1, List.count_set _ _ _ _ hi2,
      List.getElem_set, if_neg hij]
    simp only [hgi, hgj, beq_iff_eq]
    by_cases e1 : a.toList[i] = x
    · have h1 := hci e1
      by_cases e2 : a.toList[j] = x
      · have h2 := hcj e2
        simp only [e1, e2, if_pos]
        omega
      · simp only [e1, e2, if_pos, if_neg, not_false_iff]
        omega
    · by_cases e2 : a.toList[j] = x
      · have h2 := hcj e2
        simp only [e1, e2, if_pos, if_neg, not_false_iff]
        omega
      · simp only [e1, e2, if_neg, not_false_iff]
        omega

theorem mset_pop_last {a : Array Task} (h : 0 < a.size) :
    mset a = slot a (a.size - 1) ::ₘ mset a.pop := by
  have hne : a.toList ≠ [] := List.length_pos.mp (by simpa using h)
  have hlen : a.toList.length = a.size := by simp
  have hlast : a.toList.getLast hne = slot a (a.size - 1) := by
    rw [List.getLast_eq_getElem, slot_eq_get (by omega : a.size - 1 < a.size)]
    rw [Array.get_eq_getElem]
    simp only [hlen]
    exact Array.getElem_toList (by omega)
  have hsplit : a.toList.dropLast ++ [a.toList.getLast hne] = a.toList :=
    List.dropLast_append_getLast hne
  simp only [mset, Array.toList_pop]
  calc (a.toList : Multiset Task)
      = ((a.toList.dropLast ++ [a.toList.getLast hne] : List Task) :
          Multiset Task) := by rw [hsplit]
    _ = slot a (a.size - 1) ::ₘ (a.toList.dropLast : Multiset Task) := by
        rw [Multiset.cons_coe, Multiset.coe_eq_coe, hlast]
        exact List.perm_append_singleton _ _

theorem mem_mset {a : Array Task} {u : Task} :
    u ∈ mset a ↔ ∃ i, ∃ h : i < a.size, slot a i = u := by
  simp only [mset, Multiset.mem_coe, List.mem_iff_getElem]
  constructor
  · rintro ⟨n, hn, hu⟩
    have hn2 : n < a.size := by simpa using hn
    exact ⟨n, hn2, by rw [slot_eq_get hn2, Array.get_eq_getElem,
      ← Array.getElem_toList hn2] at *; exact hu⟩
  · rintro ⟨n, hn, hu⟩
    have hn2 : n < a.toList.length := by simpa using hn
    refine ⟨n, hn2, ?_⟩
    rw [slot_eq_get hn, Array.get_eq_getElem] at hu
    rw [Array.getElem_toList hn]
    exact hu

theorem size_mset (a : Array Task) : Multiset.card (mset a) = a.size := by
  simp [mset]

/-! ## Lemmas: sift-up restores the heap invariant -/

theorem siftUp_size (fuel : Nat) (a : Array Task) (i : Nat) :
    (siftUp fuel a i).size = a.size := by
  induction fuel generalizing a i with
  | zero => rfl
  | succ fuel ih =>
    unfold siftUp
    split_ifs with h hle
    · rfl
    · rw [ih, Array.size_swap]
    · rfl

theorem siftUp_mset (fuel : Nat) (a : Array Task) (i : Nat) :
    mset (siftUp fuel a i) = mset a := by
  induction fuel generalizing a i with
  | zero => rfl
  | succ fuel ih =>
    unfold siftUp
    split_ifs with h hle
    · rfl
    · rw [ih, mset_swap]
    · rfl

theorem heapInv_of_upInv_stop {a : Array Task} {i : Nat} (hU : UpInv a i)
    (hstop : i = 0 ∨ (slot a i).priority ≤ (slot a (parent i)).priority) :
    HeapInv a := by
  intro j hj hj0
  by_cases hji : j = i
  · subst hji
    rcases hstop with h0 | hle
    · omega
    · exact hle
  · exact hU.1 j hj hj0 hji

theorem upInv_step {a : Array Task} {i : Nat} (hU : UpInv a i) (h0 : 0 < i)
    (hi : i < a.size)
    (hgt : ¬ (slot a i).priority ≤ (slot a (parent i)).priority) :
    UpInv (a.swap ⟨i, hi⟩ ⟨parent i, Nat.lt_of_le_of_lt (parent_le i) hi⟩)
      (parent i) := by
  have hp : parent i < a.size := Nat.lt_of_le_of_lt (parent_le i) hi
  have hpi : parent i ≠ i := by have := parent_lt h0; omega
  have hsize : (a.swap ⟨i, hi⟩ ⟨parent i, hp⟩).size = a.size :=
    Array.size_swap a _ _
  have hslot : ∀ k, slot (a.swap ⟨i, hi⟩ ⟨parent i, hp⟩) k =
      if k = i then slot a (parent i)
      else if k = parent i then slot a i else slot a k :=
    fun k => slot_swap hi hp k
  constructor
  · intro j hj hj0 hjp
    rw [hsize] at hj
    by_cases hji : j = i
    · rw [hji, hslot i, hslot (parent i), if_pos rfl, if_neg hpi, if_pos rfl]
      omega
    · rw [hslot j, if_neg hji, if_neg hjp]
      by_cases hpj : parent j = i
      · rw [hslot (parent j), if_pos hpj]
        exact hU.2 h0 j hj hpj
      · by_cases hpp : parent j = parent i
        · rw [hslot (parent j), if_neg hpj, if_pos hpp]
          have h1 := hU.1 j hj hj0 hji
          rw [hpp] at h1
          omega
        · rw [hslot (parent j), if_neg hpj, if_neg hpp]
          exact hU.1 j hj hj0 hji
  · intro hp0 c hc hpc
    rw [hsize] at hc
    have hppi : parent (parent i) ≠ i := by
      have h1 := parent_lt hp0
      have h2 := parent_lt h0
      omega
    have hppp : parent (parent i) ≠ parent i := by
      have := parent_lt hp0; omega
    rw [hslot c, hslot (parent (parent i)), if_neg hppi, if_neg hppp]
    by_cases hcv : c = i
    · rw [if_pos hcv]
      exact hU.1 (parent i) hp hp0 hpi
    · by_cases hcp : c = parent i
      · exfalso
        rw [hcp] at hpc
        have := parent_lt hp0
        omega
      · rw [if_neg hcv, if_neg hcp]
        have hc0 : 0 < c := by
          rcases Nat.eq_zero_or_pos c with h | h
          · exfalso
            rw [h, show parent 0 = 0 from rfl] at hpc
            omega
          · exact h
        have h1 := hU.1 c hc hc0 hcv
        rw [hpc] at h1
        have h2 := hU.1 (parent i) hp hp0 hpi
        omega

theorem siftUp_heapInv (fuel : Nat) (a : Array Task) (i : Nat)
    (hU : UpInv a i) (hi : i < a.size) (hf : i ≤ fuel) :
    HeapInv (siftUp fuel a i) := by
  induction fuel generalizing a i with
  | zero =>
    have : i = 0 := by omega
    subst this
    exact heapInv_of_upInv_stop hU (Or.inl rfl)
  | succ fuel ih =>
    unfold siftUp
    split_ifs with h hle
    · exact heapInv_of_upInv_stop hU
        (Or.inr ((le_get_iff h.2 (Nat.lt_of_le_of_lt (parent_le i) h.2)).mp hle))
    · have hgt : ¬ (slot a i).priority ≤ (slot a (parent i)).priority := by
        intro hc
        exact hle ((le_get_iff h.2
          (Nat.lt_of_le_of_lt (parent_le i) h.2)).mpr hc)
      apply ih _ _ (upInv_step hU h.1 h.2 hgt)
      · rw [Array.size_swap]
        exact Nat.lt_of_le_of_lt (parent_le i) h.2
      · have := parent_lt h.1; omega
    · have : i = 0 := by omega
      subst this
      exact heapInv_of_upInv_stop hU (Or.inl rfl)

theorem upInv_push {a : Array Task} (hInv : HeapInv a) (t : Task) :
    UpInv (a.push t) a.size := by
  constructor
  · intro j hj hj0 hji
    rw [Array.size_push] at hj
    have hj2 : j < a.size := by omega
    have hpj : parent j < a.size := Nat.lt_of_le_of_lt (parent_le j) hj2
    rw [slot_push, slot_push, if_pos hj2, if_pos hpj]
    exact hInv j hj2 hj0
  · intro h0 c hc hpc
    exfalso
    rw [Array.size_push] at hc
    simp only [parent] at hpc
    omega

theorem push_heapInv {a : Array Task} (hInv : HeapInv a) (t : Task) :
    HeapInv (BinaryHeap.push a t) :=
  siftUp_heapInv a.size (a.push t) a.size (upInv_push hInv t)
    (by rw [Array.size_push]; omega) (Nat.le_refl _)

theorem push_heap_mset (a : Array Task) (t : Task) :
    mset (BinaryHeap.push a t) = t ::ₘ mset a := by
  unfold BinaryHeap.push
  rw [siftUp_mset, mset_push]

theorem push_heap_size (a : Array Task) (t : Task) :
    (BinaryHeap.push a t).size = a.size + 1 := by
  unfold BinaryHeap.push
  rw [siftUp_size, Array.size_push]

/-! ## Lemmas: sift-down restores the heap invariant -/

theorem siftDown_size (fuel : Nat) (a : Array Task) (i : Nat) :
    (siftDown fuel a i).size = a.size := by
  induction fuel generalizing a i with
  | zero => rfl
  | succ fuel ih =>
    unfold siftDown
    split_ifs <;> first | rfl | rw [ih, Array.size_swap]

theorem siftDown_mset (fuel : Nat) (a : Array Task) (i : Nat) :
    mset (siftDown fuel a i) = mset a := by
  induction fuel generalizing a i with
  | zero => rfl
  | succ fuel ih =>
    unfold siftDown
    split_ifs <;> first | rfl | rw [ih, mset_swap]

theorem heapInv_of_downInv_stop {a : Array Task} {i : Nat} (hD : DownInv a i)
    (hstop : ∀ c, c < a.size → parent c = i → 0 < c →
      (slot a c).priority ≤ (slot a i).priority) :
    HeapInv a := by
  intro j hj hj0
  by_cases hpj : parent j = i
  · rw [hpj]
    exact hstop j hj hpj hj0
  · exact hD.1 j hj hj0 hpj

theorem downInv_step {a : Array Task} {i c : Nat} (hD : DownInv a i)
    (hi : i < a.size) (hc : c < a.size) (hpc : parent c = i) (hic : i < c)
    (hsib : ∀ s, s < a.size → parent s = i → 0 < s → s ≠ c →
      (slot a s).priority ≤ (slot a c).priority)
    (hgt : ¬ (slot a c).priority ≤ (slot a i).priority) :
    DownInv (a.swap ⟨i, hi⟩ ⟨c, hc⟩) c := by
  have hic2 : i ≠ c := by omega
  have hsize : (a.swap ⟨i, hi⟩ ⟨c, hc⟩).size = a.size := Array.size_swap a _ _
  have hslot : ∀ k, slot (a.swap ⟨i, hi⟩ ⟨c, hc⟩) k =
      if k = i then slot a c else if k = c then slot a i else slot a k :=
    fun k => slot_swap hi hc k
  constructor
  · intro j hj hj0 hjd
    rw [hsize] at hj
    by_cases hjc : j = c
    · rw [hjc, hslot c, hslot (parent c), if_neg (Ne.symm hic2), if_pos rfl,
        hpc, if_pos rfl]
      omega
    · by_cases hji : j = i
      · have hpi : parent i ≠ i := by
          have := parent_lt (hji ▸ hj0); omega
        have hpic : parent i ≠ c := by
          have := parent_le i; omega
        rw [hji, hslot i, hslot (parent i), if_pos rfl, if_neg hpi,
          if_neg hpic]
        exact hD.2 (hji ▸ hj0) c hc hpc
      · rw [hslot j, if_neg hji, if_neg hjc]
        by_cases hpj : parent j = i
        · rw [hslot (parent j), hpj, if_pos rfl]
          exact hsib j hj hpj hj0 hjc
        · have hpjc : parent j ≠ c := hjd
          rw [hslot (parent j), if_neg hpj, if_neg hpjc]
          exact hD.1 j hj hj0 hpj
  · intro hc0 d hd hpd
    rw [hsize] at hd
    have hd0 : 0 < d := by
      rcases Nat.eq_zero_or_pos d with h | h
      · exfalso
        rw [h, show parent 0 = 0 from rfl] at hpd
        omega
      · exact h
    have hdc : c < d := by
      rcases child_cases hd0 hpd with h | h <;> omega
    have hdi : d ≠ i := by omega
    have hdc2 : d ≠ c := by omega
    have hpci : parent c ≠ i → False := fun hcon => hcon hpc
    rw [hslot d, if_neg hdi, if_neg hdc2, hpc, hslot i, if_pos rfl]
    have h1 := hD.1 d hd hd0 (by rw [hpd]; omega : parent d ≠ i)
    rw [hpd] at h1
    exact h1

theorem siftDown_heapInv (fuel : Nat) (a : Array Task) (i : Nat)
    (hD : DownInv a i) (hf : a.size ≤ fuel + i) :
    HeapInv (siftDown fuel a i) := by
  induction fuel generalizing a i with
  | zero =>
    apply heapInv_of_downInv_stop hD
    intro c hc hpc hc0
    exfalso
    rcases child_cases hc0 hpc with h | h <;> omega
  | succ fuel ih =>
    unfold siftDown
    split_ifs with hl hr hc1 hs1 hs2 hs3
    · -- both children, right is the max child, and it is ≤ the hole
      apply heapInv_of_downInv_stop hD
      intro c hc hpc hc0
      have h1 := (le_get_iff hl hr).mp hc1
      have h2 := (le_get_iff hr (by omega)).mp hs1
      rcases child_cases hc0 hpc with h | h <;> rw [h] <;> omega
    · -- both children, right is the max child and beats the hole: swap down
      apply ih _ _ (downInv_step hD (by omega) hr (parent_right i) (by omega)
        ?_ ?_)
      · rw [Array.size_swap]; omega
      · intro s hs hps hs0 hsc
        rcases child_cases hs0 hps with h | h
        · rw [h]
          exact (le_get_iff hl hr).mp hc1
        · exact absurd h hsc
      · intro hcon
        exact hs1 ((le_get_iff hr (by omega)).mpr hcon)
    · -- both children, left is the max child, and it is ≤ the hole
      apply heapInv_of_downInv_stop hD
      intro c hc hpc hc0
      have h1 : ¬ (slot a (2*i+1)).priority ≤ (slot a (2*i+2)).priority :=
        fun hcon => hc1 ((le_get_iff hl hr).mpr hcon)
      have h2 := (le_get_iff hl (by omega)).mp hs2
      rcases child_cases hc0 hpc with h | h <;> rw [h] <;> omega
    · -- both children, left is the max child and beats the hole: swap down
      apply ih _ _ (downInv_step hD (by omega) hl (parent_left i) (by omega)
        ?_ ?_)
      · rw [Array.size_swap]; omega
      · intro s hs hps hs0 hsc
        rcases child_cases hs0 hps with h | h
        · exact absurd h hsc
        · rw [h]
          have h1 : ¬ (slot a (2*i+1)).priority ≤ (slot a (2*i+2)).priority :=
            fun hcon => hc1 ((le_get_iff hl hr).mpr hcon)
          omega
      · intro hcon
        exact hs2 ((le_get_iff hl (by omega)).mpr hcon)
    · -- only the left child exists and it is ≤ the hole
      apply heapInv_of_downInv_stop hD
      intro c hc hpc hc0
      have h2 := (le_get_iff hl (by omega)).mp hs3
      rcases child_cases hc0 hpc with h | h
      · rw [h]; omega
      · omega
    · -- only the left child exists and it beats the hole: swap down
      apply ih _ _ (downInv_step hD (by omega) hl (parent_left i) (by omega)
        ?_ ?_)
      · rw [Array.size_swap]; omega
      · intro s hs hps hs0 hsc
        rcases child_cases hs0 hps with h | h
        · exact absurd h hsc
        · exfalso; omega
      · intro hcon
        exact hs3 ((le_get_iff hl (by omega)).mpr hcon)
    · -- no children in range
      apply heapInv_of_downInv_stop hD
      intro c hc hpc hc0
      exfalso
      rcases child_cases hc0 hpc with h | h <;> omega

theorem le_root {a : Array Task} (hInv : HeapInv a) :
    ∀ i, i < a.size → (slot a i).priority ≤ (slot a 0).priority := by
  intro i
  induction i using Nat.strong_induction_on with
  | _ i ih =>
    intro hi
    rcases Nat.eq_zero_or_pos i with h0 | h0
    · rw [h0]
    · have h1 := hInv i hi h0
      have h2 := ih (parent i) (parent_lt h0)
        (Nat.lt_trans (parent_lt h0) hi)
      omega

/-! ## Lemmas: pop -/

theorem popMax_empty {a : Array Task} (h : a.size = 0) :
    popMax a = (none, a) := by
  unfold popMax
  rw [dif_neg (by omega)]

theorem popMax_none_iff {a : Array Task} :
    (popMax a).1 = none ↔ a.size = 0 := by
  constructor
  · intro hn
    by_contra hc
    have h : 0 < a.size := by omega
    unfold popMax at hn
    rw [dif_pos h] at hn
    cases hn
  · intro h0
    rw [popMax_empty h0]

theorem downInv_pop {a : Array Task} (hInv : HeapInv a) (h : 0 < a.size) :
    DownInv ((a.swap ⟨0, h⟩ ⟨a.size - 1, by omega⟩).pop) 0 := by
  have hlast : a.size - 1 < a.size := by omega
  have hsw : (a.swap ⟨0, h⟩ ⟨a.size - 1, hlast⟩).size = a.size :=
    Array.size_swap a _ _
  constructor
  · intro j hj hj0 hpj
    rw [Array.size_pop, hsw] at hj
    have hjlt : j < (a.swap ⟨0, h⟩ ⟨a.size - 1, hlast⟩).size - 1 := by
      rw [hsw]; omega
    have hpjlt : parent j < (a.swap ⟨0, h⟩ ⟨a.size - 1, hlast⟩).size - 1 := by
      rw [hsw]; have := parent_le j; omega
    rw [slot_pop hjlt, slot_pop hpjlt, slot_swap h hlast j,
      slot_swap h hlast (parent j)]
    rw [if_neg (by omega : ¬ j = 0), if_neg (by omega : ¬ j = a.size - 1),
      if_neg hpj, if_neg (by have := parent_le j; omega : ¬ parent j = a.size - 1)]
    exact hInv j (by omega) hj0
  · intro h0
    exact absurd h0 (Nat.lt_irrefl 0)

theorem slot_swap_last {a : Array Task} (h : 0 < a.size) :
    slot (a.swap ⟨0, h⟩ ⟨a.size - 1, by omega⟩) (a.size - 1) = slot a 0 := by
  have hlast : a.size - 1 < a.size := by omega
  rw [slot_swap h hlast (a.size - 1)]
  rcases Nat.eq_zero_or_pos (a.size - 1) with h0 | h0
  · rw [h0, if_pos rfl]
  · rw [if_neg (by omega), if_pos rfl]

theorem popMax_spec {a : Array Task} (hInv : HeapInv a) (h : 0 < a.size) :
    (popMax a).1 = some (slot a 0) ∧
    HeapInv (popMax a).2 ∧
    mset (popMax a).2 = (mset a).erase (slot a 0) ∧
    (popMax a).2.size = a.size - 1 := by
  have hlast : a.size - 1 < a.size := by omega
  have hsw : (a.swap ⟨0, h⟩ ⟨a.size - 1, hlast⟩).size = a.size :=
    Array.size_swap a _ _
  have hmb : slot a 0 ::ₘ
      mset ((a.swap ⟨0, h⟩ ⟨a.size - 1, hlast⟩).pop) = mset a := by
    have h1 : 0 < (a.swap ⟨0, h⟩ ⟨a.size - 1, hlast⟩).size := by rw [hsw]; omega
    have h2 := mset_pop_last h1
    rw [mset_swap h hlast, hsw, slot_swap_last h] at h2
    exact h2.symm
  unfold popMax
  rw [dif_pos h]
  refine ⟨by rw [slot_eq_get h], ?_, ?_, ?_⟩
  · exact siftDown_heapInv _ _ _ (downInv_pop hInv h) (by omega)
  · rw [siftDown_mset, ← hmb, Multiset.erase_cons_head]
  · rw [siftDown_size, Array.size_pop, hsw]

theorem popMax_max {a : Array Task} (hInv : HeapInv a) (h : 0 < a.size)
    {u : Task} (hu : u ∈ mset a) :
    u.priority ≤ (slot a 0).priority := by
  rcases mem_mset.mp hu with ⟨i, hi, hiu⟩
  rw [← hiu]
  exact le_root hInv i hi

theorem root_mem_mset {a : Array Task} (h : 0 < a.size) :
    slot a 0 ∈ mset a :=
  mem_mset.mpr ⟨0, h, rfl⟩

end BinaryHeap

/-! ## Lemmas: the queue operations -/

theorem PriorityQueue.new_WF : PriorityQueue.new.WF := by decide

theorem PriorityQueue.push_WF {q : PriorityQueue} (h : q.WF) (t : Task) :
    (q.push t).WF :=
  BinaryHeap.push_heapInv h t

theorem PriorityQueue.push_tasks (q : PriorityQueue) (t : Task) :
    (q.push t).tasks = t ::ₘ q.tasks :=
  BinaryHeap.push_heap_mset q.heap t

theorem PriorityQueue.tasks_card (q : PriorityQueue) :
    Multiset.card q.tasks = q.heap.size :=
  BinaryHeap.size_mset q.heap

theorem PriorityQueue.pop_none_iff (q : PriorityQueue) :
    (q.pop).1 = none ↔ q.tasks = 0 := by
  unfold PriorityQueue.pop
  rw [BinaryHeap.popMax_none_iff]
  rw [← PriorityQueue.tasks_card, Multiset.card_eq_zero]

theorem PriorityQueue.pop_empty {q : PriorityQueue} (h : q.tasks = 0) :
    q.pop = (none, q) := by
  have h0 : q.heap.size = 0 := by
    rw [← PriorityQueue.tasks_card, h]
    rfl
  unfold PriorityQueue.pop
  rw [BinaryHeap.popMax_empty h0]

theorem PriorityQueue.pop_spec {q : PriorityQueue} (hWF : q.WF)
    {t : Task} {q' : PriorityQueue} (h : q.pop = (some t, q')) :
    t ∈ q.tasks ∧
    (∀ u ∈ q.tasks, u.priority ≤ t.priority) ∧
    q'.tasks = q.tasks.erase t ∧
    q'.WF ∧
    Multiset.card q'.tasks = Multiset.card q.tasks - 1 := by
  have hsz : 0 < q.heap.size := by
    by_contra hc
    have h0 : q.heap.size = 0 := by omega
    rw [PriorityQueue.pop_empty (by
      rw [← Multiset.card_eq_zero, PriorityQueue.tasks_card]; exact h0)] at h
    cases h
  obtain ⟨h1, h2, h3, h4⟩ := BinaryHeap.popMax_spec hWF hsz
  have ht : t = BinaryHeap.slot q.heap 0 := by
    have := congrArg Prod.fst h
    unfold PriorityQueue.pop at this
    rw [h1] at this
    exact (Option.some.inj this.symm)
  have hq' : q' = ⟨(BinaryHeap.popMax q.heap).2⟩ := by
    have := congrArg Prod.snd h
    unfold PriorityQueue.pop at this
    exact this.symm
  subst ht hq'
  refine ⟨BinaryHeap.root_mem_mset hsz,
    fun u hu => BinaryHeap.popMax_max hWF hsz hu, h3, h2, ?_⟩
  show Multiset.card (BinaryHeap.mset _) = _
  rw [BinaryHeap.size_mset, PriorityQueue.tasks_card, h4]

/-! ## Lemmas: repeated pops -/

theorem drain_subset (fuel : Nat) (q : PriorityQueue) (hWF : q.WF)
    {v : Task} (hv : v ∈ drain fuel q) : v ∈ q.tasks := by
  induction fuel generalizing q with
  | zero =>
    simp only [drain] at hv
    cases hv
  | succ fuel ih =>
    rcases hq : q.pop with ⟨_ | t, q'⟩
    · simp only [drain, hq] at hv
      cases hv
    · simp only [drain, hq] at hv
      obtain ⟨ht, hmax, htasks, hWF', hcard⟩ := PriorityQueue.pop_spec hWF hq
      rcases List.mem_cons.mp hv with h | h
      · rw [h]; exact ht
      · have h1 := ih q' hWF' h
        rw [htasks] at h1
        exact Multiset.mem_of_mem_erase h1

theorem drain_sorted (fuel : Nat) (q : PriorityQueue) (hWF : q.WF) :
    List.Sorted (fun x y => x ≥ y) ((drain fuel q).map Task.priority) := by
  induction fuel generalizing q with
  | zero => simp [drain]
  | succ fuel ih =>
    rcases hq : q.pop with ⟨_ | t, q'⟩
    · simp [drain, hq]
    · obtain ⟨ht, hmax, htasks, hWF', hcard⟩ := PriorityQueue.pop_spec hWF hq
      simp only [drain, hq, List.map_cons]
      rw [List.sorted_cons]
      refine ⟨?_, ih q' hWF'⟩
      intro b hb
      rcases List.mem_map.mp hb with ⟨v, hv, hvb⟩
      have h1 := drain_subset fuel q' hWF' hv
      rw [htasks] at h1
      have h2 := hmax v (Multiset.mem_of_mem_erase h1)
      omega

theorem drain_tasks (fuel : Nat) (q : PriorityQueue) (hWF : q.WF)
    (hf : Multiset.card q.tasks ≤ fuel) :
    ((drain fuel q : List Task) : Multiset Task) = q.tasks := by
  induction fuel generalizing q with
  | zero =>
    have h0 : q.tasks = 0 := Multiset.card_eq_zero.mp (by omega)
    rw [h0]
    rfl
  | succ fuel ih =>
    rcases hq : q.pop with ⟨_ | t, q'⟩
    · have h0 : q.tasks = 0 := (PriorityQueue.pop_none_iff q).mp (by rw [hq])
      simp only [drain, hq]
      rw [h0]
      rfl
    · obtain ⟨ht, hmax, htasks, hWF', hcard⟩ := PriorityQueue.pop_spec hWF hq
      simp only [drain, hq]
      rw [← Multiset.cons_coe, ih q' hWF' (by omega), htasks,
        Multiset.cons_erase ht]

/-! ## Lemmas: pushing a list of tasks -/

theorem foldl_push_WF (ts : List Task) (q : PriorityQueue) (hWF : q.WF) :
    (ts.foldl PriorityQueue.push q).WF := by
  induction ts generalizing q with
  | nil => exact hWF
  | cons t ts ih => exact ih _ (PriorityQueue.push_WF hWF t)

theorem pushAll_WF (ts : List Task) : (pushAll ts).WF :=
  foldl_push_WF ts _ PriorityQueue.new_WF

theorem foldl_push_tasks (ts : List Task) (q : PriorityQueue) :
    (ts.foldl PriorityQueue.push q).tasks = q.tasks + (ts : Multiset Task) := by
  induction ts generalizing q with
  | nil => simp
  | cons t ts ih =>
    simp only [List.foldl_cons]
    rw [ih, PriorityQueue.push_tasks, ← Multiset.cons_coe]
    rw [Multiset.cons_add, Multiset.add_cons]

theorem pushAll_tasks (ts : List Task) :
    (pushAll ts).tasks = (ts : Multiset Task) := by
  unfold pushAll
  rw [foldl_push_tasks]
  rw [show PriorityQueue.new.tasks = 0 from rfl, zero_add]

theorem pushAll_size (ts : List Task) :
    (pushAll ts).heap.size = ts.length := by
  rw [← PriorityQueue.tasks_card, pushAll_tasks, Multiset.coe_card]

/-! ## Lemmas: singleton queues -/

theorem pop_new : PriorityQueue.new.pop = (none, PriorityQueue.new) := rfl

theorem push_new_pop (t : Task) :
    (PriorityQueue.new.push t).pop = (some t, PriorityQueue.new) := rfl

theorem Task.withRetry_withRetry (t : Task) (m n : Nat) :
    (t.withRetry m).withRetry n = t.withRetry n := rfl

theorem Task.id_withRetry (t : Task) (n : Nat) : (t.withRetry n).id = t.id :=
  rfl

theorem Task.payload_withRetry (t : Task) (n : Nat) :
    (t.withRetry n).payload = t.payload := rfl

theorem Task.priority_withRetry (t : Task) (n : Nat) :
    (t.withRetry n).priority = t.priority := rfl

theorem Task.retry_count_withRetry (t : Task) (n : Nat) :
    (t.withRetry n).retry_count = n := rfl

/-! ## Lemmas: the scheduler step -/

theorem schedulerStep_pop_some {q : PriorityQueue} {t : Task}
    {q' : PriorityQueue} (store : Payload → Bool)
    (hq : q.pop = (some t, q')) :
    schedulerStep store q =
      if 100 < t.priority then
        (q', .slow t (handle_slow_task t store))
      else if handle_quick_task t store then
        (q', .fast t true none)
      else if t.retry_count < MAX_RETRIES then
        (q'.push (t.withRetry (t.retry_count + 1)),
          .fast t false (some (t.withRetry (t.retry_count + 1))))
      else (q', .fast t false none) := by
  unfold schedulerStep
  rw [hq]
  rfl

theorem schedulerStep_pop_none {q q' : PriorityQueue}
    (store : Payload → Bool) (hq : q.pop = (none, q')) :
    schedulerStep store q = (q', .idle) := by
  unfold schedulerStep
  rw [hq]

theorem schedulerStep_new (store : Payload → Bool) :
    schedulerStep store PriorityQueue.new = (PriorityQueue.new, .idle) := rfl

theorem run_scheduler_new (store : Payload → Bool) (n : Nat) :
    run_scheduler store PriorityQueue.new n =
      (PriorityQueue.new, List.replicate n .idle) := by
  induction n with
  | zero => rfl
  | succ n ih =>
    simp only [run_scheduler, schedulerStep_new, ih, List.replicate_succ]

theorem schedulerStep_retry (store : Payload → Bool) {u : Task}
    (hpr : u.priority ≤ 100) (hfail : store u.payload = false)
    (hrc : u.retry_count < MAX_RETRIES) :
    schedulerStep store (PriorityQueue.new.push u) =
      (PriorityQueue.new.push (u.withRetry (u.retry_count + 1)),
        .fast u false (some (u.withRetry (u.retry_count + 1)))) := by
  rw [schedulerStep_pop_some store (push_new_pop u), if_neg (by omega),
    show handle_quick_task u store = false from hfail, if_neg (by decide),
    if_pos hrc]

theorem schedulerStep_exhausted (store : Payload → Bool) {u : Task}
    (hpr : u.priority ≤ 100) (hfail : store u.payload = false)
    (hrc : ¬ u.retry_count < MAX_RETRIES) :
    schedulerStep store (PriorityQueue.new.push u) =
      (PriorityQueue.new, .fast u false none) := by
  rw [schedulerStep_pop_some store (push_new_pop u), if_neg (by omega),
    show handle_quick_task u store = false from hfail, if_neg (by decide),
    if_neg hrc]

theorem schedulerStep_requeue_inv {store : Payload → Bool}
    {q : PriorityQueue} {u t' : Task} {st : Bool}
    (h : (schedulerStep store q).2 = .fast u st (some t')) :
    u.retry_count < MAX_RETRIES ∧ t' = u.withRetry (u.retry_count + 1) ∧
    st = false ∧ (schedulerStep store q).1 = (q.pop).2.push t' := by
  rcases hq : q.pop with ⟨_ | t, q2⟩
  · rw [schedulerStep_pop_none store hq] at h
    exact Dispatch.noConfusion h
  · rw [schedulerStep_pop_some store hq] at h
    split_ifs at h with h1 h2 h3
    · injection h with e1 e2 e3
      exact Option.noConfusion e3
    · injection h with e1 e2 e3
      injection e3 with e3
      subst e1
      refine ⟨h3, e3.symm, e2.symm, ?_⟩
      rw [schedulerStep_pop_some store hq, if_neg h1, if_neg h2, if_pos h3,
        e3]
    · injection h with e1 e2 e3
      exact Option.noConfusion e3

/-! ## The claims -/

/-- C1: for every sequence of `n` pushes, `n` pops yield the pushed
tasks with their priorities in non-increasing order, and on any
well-formed queue each individual pop removes and returns a task of
maximum priority among those currently stored. -/
theorem priority_queue_ordering (ts : List Task) (q : PriorityQueue)
    (hWF : q.WF) :
    List.Sorted (fun x y => x ≥ y)
      ((drain ts.length (pushAll ts)).map Task.priority) ∧
    ((drain ts.length (pushAll ts) : List Task) : Multiset Task) =
      (ts : Multiset Task) ∧
    ∀ t q', q.pop = (some t, q') →
      t ∈ q.tasks ∧ (∀ u ∈ q.tasks, u.priority ≤ t.priority) ∧
      q'.tasks = q.tasks.erase t := by
  refine ⟨drain_sorted _ _ (pushAll_WF ts), ?_, ?_⟩
  · rw [drain_tasks _ _ (pushAll_WF ts)
      (by rw [PriorityQueue.tasks_card, pushAll_size]), pushAll_tasks]
  · intro t q' h
    obtain ⟨h1, h2, h3, _, _⟩ := PriorityQueue.pop_spec hWF h
    exact ⟨h1, h2, h3⟩

theorem priority_queue_ordering_witness :
    PriorityQueue.WF ⟨#[⟨3, 0, 7, 0⟩]⟩ ∧
    List.Sorted (fun x y => x ≥ y)
      ((drain 2 (pushAll [⟨1, 0, 10, 0⟩, ⟨2, 0, 100, 0⟩])).map
        Task.priority) :=
  ⟨by decide,
    (priority_queue_ordering [⟨1, 0, 10, 0⟩, ⟨2, 0, 100, 0⟩]
      ⟨#[⟨3, 0, 7, 0⟩]⟩ (by decide)).1⟩

/-- C2: a fast-path task whose handler always fails is re-enqueued
exactly 3 times (retry counts 1, 2, 3 on the successive re-enqueues),
then handled a fourth time without re-enqueueing and permanently
discarded — afterwards the queue is empty and every further iteration
idles.  Moreover the core only re-enqueues a task whose retry count is
below `MAX_RETRIES`, and the re-enqueued copy's retry count never
exceeds `MAX_RETRIES`. -/
theorem retry_bound (t : Task) (store : Payload → Bool)
    (hpr : t.priority ≤ 100) (hrc : t.retry_count = 0)
    (hfail : store t.payload = false) :
    (∀ n : Nat, run_scheduler store (PriorityQueue.new.push t) (n + 4) =
      (PriorityQueue.new,
        [Dispatch.fast t false (some (t.withRetry 1)),
         Dispatch.fast (t.withRetry 1) false (some (t.withRetry 2)),
         Dispatch.fast (t.withRetry 2) false (some (t.withRetry 3)),
         Dispatch.fast (t.withRetry 3) false none] ++
          List.replicate n Dispatch.idle)) ∧
    (∀ (store2 : Payload → Bool) (q : PriorityQueue) (u t' : Task)
        (st : Bool),
      (schedulerStep store2 q).2 = Dispatch.fast u st (some t') →
        u.retry_count < MAX_RETRIES ∧
        t'.retry_count = u.retry_count + 1 ∧
        t'.retry_count ≤ MAX_RETRIES) := by
  constructor
  · intro n
    have e1 : schedulerStep store (PriorityQueue.new.push t) =
        (PriorityQueue.new.push (t.withRetry 1),
          Dispatch.fast t false (some (t.withRetry 1))) := by
      have e := schedulerStep_retry store hpr hfail (by rw [hrc]; decide)
      rw [hrc] at e
      exact e
    have e2 : schedulerStep store (PriorityQueue.new.push (t.withRetry 1)) =
        (PriorityQueue.new.push (t.withRetry 2),
          Dispatch.fast (t.withRetry 1) false (some (t.withRetry 2))) :=
      @schedulerStep_retry store (t.withRetry 1) hpr hfail
        (by show (1:Nat) < MAX_RETRIES; decide)
    have e3 : schedulerStep store (PriorityQueue.new.push (t.withRetry 2)) =
        (PriorityQueue.new.push (t.withRetry 3),
          Dispatch.fast (t.withRetry 2) false (some (t.withRetry 3))) :=
      @schedulerStep_retry store (t.withRetry 2) hpr hfail
        (by show (2:Nat) < MAX_RETRIES; decide)
    have e4 : schedulerStep store (PriorityQueue.new.push (t.withRetry 3)) =
        (PriorityQueue.new, Dispatch.fast (t.withRetry 3) false none) :=
      @schedulerStep_exhausted store (t.withRetry 3) hpr hfail
        (by show ¬ (3:Nat) < MAX_RETRIES; decide)
    simp only [run_scheduler, e1, e2, e3, e4, run_scheduler_new,
      List.cons_append, List.nil_append]
  · intro store2 q u t' st h
    obtain ⟨h1, h2, _, _⟩ := schedulerStep_requeue_inv h
    refine ⟨h1, ?_, ?_⟩
    · rw [h2, Task.retry_count_withRetry]
    · rw [h2, Task.retry_count_withRetry]
      omega

theorem retry_bound_witness :
    ((fun _ : Payload => false) (⟨1, 5, 50, 0⟩ : Task).payload = false) ∧
    run_scheduler (fun _ => false)
        (PriorityQueue.new.push ⟨1, 5, 50, 0⟩) (0 + 4) =
      (PriorityQueue.new,
        [Dispatch.fast ⟨1, 5, 50, 0⟩ false (some ⟨1, 5, 50, 1⟩),
         Dispatch.fast ⟨1, 5, 50, 1⟩ false (some ⟨1, 5, 50, 2⟩),
         Dispatch.fast ⟨1, 5, 50, 2⟩ false (some ⟨1, 5, 50, 3⟩),
         Dispatch.fast ⟨1, 5, 50, 3⟩ false none] ++
          List.replicate 0 Dispatch.idle) :=
  ⟨rfl,
    (retry_bound ⟨1, 5, 50, 0⟩ (fun _ => false) (by decide) rfl rfl).1 0⟩

/-- C3: a popped task is routed by the fixed threshold 100 on its
priority: strictly above 100 it is dispatched to the slow path, at or
below 100 (including exactly 100) to the fast path. -/
theorem routing_threshold (store : Payload → Bool) (q : PriorityQueue)
    (t : Task) (q' : PriorityQueue) (hq : q.pop = (some t, q')) :
    (100 < t.priority →
      (schedulerStep store q).2 =
        Dispatch.slow t (handle_slow_task t store)) ∧
    (t.priority ≤ 100 →
      ∃ stored requeued,
        (schedulerStep store q).2 = Dispatch.fast t stored requeued) := by
  rw [schedulerStep_pop_some store hq]
  constructor
  · intro h
    rw [if_pos h]
  · intro h
    rw [if_neg (show ¬ 100 < t.priority by omega)]
    by_cases h2 : handle_quick_task t store
    · rw [if_pos h2]
      exact ⟨true, none, rfl⟩
    · rw [if_neg h2]
      by_cases h3 : t.retry_count < MAX_RETRIES
      · rw [if_pos h3]
        exact ⟨false, some (t.withRetry (t.retry_count + 1)), rfl⟩
      · rw [if_neg h3]
        exact ⟨false, none, rfl⟩

theorem routing_threshold_witness :
    (schedulerStep (fun _ => true)
        (PriorityQueue.new.push ⟨1, 0, 150, 0⟩)).2 =
      Dispatch.slow ⟨1, 0, 150, 0⟩
        (handle_slow_task ⟨1, 0, 150, 0⟩ (fun _ => true)) ∧
    (∃ stored requeued,
      (schedulerStep (fun _ => true)
          (PriorityQueue.new.push ⟨2, 0, 50, 0⟩)).2 =
        Dispatch.fast ⟨2, 0, 50, 0⟩ stored requeued) ∧
    (∃ stored requeued,
      (schedulerStep (fun _ => true)
          (PriorityQueue.new.push ⟨3, 0, 100, 0⟩)).2 =
        Dispatch.fast ⟨3, 0, 100, 0⟩ stored requeued) :=
  ⟨(routing_threshold (fun _ => true)
      (PriorityQueue.new.push ⟨1, 0, 150, 0⟩) ⟨1, 0, 150, 0⟩
      PriorityQueue.new rfl).1 (by decide),
   (routing_threshold (fun _ => true)
      (PriorityQueue.new.push ⟨2, 0, 50, 0⟩) ⟨2, 0, 50, 0⟩
      PriorityQueue.new rfl).2 (by decide),
   (routing_threshold (fun _ => true)
      (PriorityQueue.new.push ⟨3, 0, 100, 0⟩) ⟨3, 0, 100, 0⟩
      PriorityQueue.new rfl).2 (by decide)⟩

/-- C4: a slow-path dispatch (priority above 100) never re-enqueues the
task and leaves its retry count untouched, whatever the persistence
outcome: the scheduler's state after the iteration is exactly the
post-pop queue, with the popped task removed and nothing added. -/
theorem slow_path_terminal (store : Payload → Bool) (q : PriorityQueue)
    (t : Task) (q' : PriorityQueue) (hWF : q.WF)
    (hq : q.pop = (some t, q')) (hpr : 100 < t.priority) :
    schedulerStep store q = (q', Dispatch.slow t (handle_slow_task t store)) ∧
    (schedulerStep store q).1.tasks = q.tasks.erase t := by
  have hstep : schedulerStep store q =
      (q', Dispatch.slow t (handle_slow_task t store)) := by
    rw [schedulerStep_pop_some store hq, if_pos hpr]
  obtain ⟨_, _, h3, _, _⟩ := PriorityQueue.pop_spec hWF hq
  refine ⟨hstep, ?_⟩
  rw [hstep]
  exact h3

theorem slow_path_terminal_witness :
    schedulerStep (fun _ => false)
        (PriorityQueue.new.push ⟨7, 9, 150, 2⟩) =
      (PriorityQueue.new,
        Dispatch.slow ⟨7, 9, 150, 2⟩
          (handle_slow_task ⟨7, 9, 150, 2⟩ (fun _ => false))) :=
  (slow_path_terminal (fun _ => false)
    (PriorityQueue.new.push ⟨7, 9, 150, 2⟩) ⟨7, 9, 150, 2⟩
    PriorityQueue.new (by decide) rfl (by decide)).1

/-- C5: when the scheduler re-enqueues a failed fast-path task, the
re-pushed task keeps the same id, payload and priority, has its retry
count incremented by exactly one, is pushed onto the post-pop queue,
and compares (via `Ord for Task`) exactly as the popped task did. -/
theorem requeue_frame (store : Payload → Bool) (q : PriorityQueue)
    (u t' : Task) (st : Bool)
    (h : (schedulerStep store q).2 = Dispatch.fast u st (some t')) :
    t'.id = u.id ∧ t'.payload = u.payload ∧ t'.priority = u.priority ∧
    t'.retry_count = u.retry_count + 1 ∧
    (schedulerStep store q).1 = (q.pop).2.push t' ∧
    (∀ v : Task, Task.cmp t' v = Task.cmp u v ∧
      Task.cmp v t' = Task.cmp v u) := by
  obtain ⟨h1, h2, _, h4⟩ := schedulerStep_requeue_inv h
  subst h2
  refine ⟨rfl, rfl, rfl, rfl, h4, fun v => ⟨?_, ?_⟩⟩
  · rw [Task.cmp, Task.cmp, Task.priority_withRetry]
  · rw [Task.cmp, Task.cmp, Task.priority_withRetry]

theorem requeue_frame_witness :
    ((schedulerStep (fun _ => false)
        (PriorityQueue.new.push ⟨4, 6, 80, 1⟩)).2 =
      Dispatch.fast ⟨4, 6, 80, 1⟩ false (some ⟨4, 6, 80, 2⟩)) ∧
    (⟨4, 6, 80, 2⟩ : Task).id = (⟨4, 6, 80, 1⟩ : Task).id ∧
    (⟨4, 6, 80, 2⟩ : Task).retry_count =
      (⟨4, 6, 80, 1⟩ : Task).retry_count + 1 :=
  ⟨by decide,
    (requeue_frame (fun _ => false)
      (PriorityQueue.new.push ⟨4, 6, 80, 1⟩) ⟨4, 6, 80, 1⟩ ⟨4, 6, 80, 2⟩
      false (by decide)).1,
    (requeue_frame (fun _ => false)
      (PriorityQueue.new.push ⟨4, 6, 80, 1⟩) ⟨4, 6, 80, 1⟩ ⟨4, 6, 80, 2⟩
      false (by decide)).2.2.2.1⟩

/-- C6: `push` is total — for every queue and task it succeeds and
simply adds the task to the stored multiset — and a `pop` returns the
empty signal `none` exactly when the queue is empty, in which case the
queue state is unchanged: queue-empty is a normal outcome, not an
error. -/
theorem push_total_pop_empty (q : PriorityQueue) (t : Task) :
    ((q.push t).tasks = t ::ₘ q.tasks) ∧
    ((q.pop).1 = none ↔ q.tasks = 0) ∧
    (q.tasks = 0 → q.pop = (none, q)) :=
  ⟨PriorityQueue.push_tasks q t, PriorityQueue.pop_none_iff q,
    fun h => PriorityQueue.pop_empty h⟩

theorem push_total_pop_empty_witness :
    PriorityQueue.new.tasks = 0 ∧
    PriorityQueue.new.pop = (none, PriorityQueue.new) :=
  ⟨rfl, (push_total_pop_empty PriorityQueue.new ⟨0, 0, 0, 0⟩).2.2 rfl⟩

/-- C7: the ordering of tasks is determined solely by their priorities:
`PartialEq` holds exactly on equal priorities, `Ord` compares equal
exactly on equal priorities, and both are invariant under changing id,
payload or retry count. -/
theorem ordering_by_priority_only :
    (∀ a b : Task, Task.beq a b = true ↔ a.priority = b.priority) ∧
    (∀ a b : Task, Task.cmp a b = Ordering.eq ↔ a.priority = b.priority) ∧
    (∀ a b a2 b2 : Task, a.priority = a2.priority →
      b.priority = b2.priority →
      Task.cmp a b = Task.cmp a2 b2 ∧ Task.beq a b = Task.beq a2 b2) := by
  refine ⟨?_, ?_, ?_⟩
  · intro a b
    unfold Task.beq
    exact beq_iff_eq
  · intro a b
    unfold Task.cmp
    exact Nat.compare_eq_eq
  · intro a b a2 b2 h1 h2
    unfold Task.cmp Task.beq
    rw [h1, h2]
    exact ⟨rfl, rfl⟩

theorem ordering_by_priority_only_witness :
    Task.beq ⟨1, 2, 7, 0⟩ ⟨9, 8, 7, 3⟩ = true ∧
    Task.cmp ⟨1, 2, 7, 0⟩ ⟨9, 8, 7, 3⟩ = Ordering.eq :=
  ⟨(ordering_by_priority_only.1 ⟨1, 2, 7, 0⟩ ⟨9, 8, 7, 3⟩).mpr rfl,
   (ordering_by_priority_only.2.1 ⟨1, 2, 7, 0⟩ ⟨9, 8, 7, 3⟩).mpr rfl⟩

/-- C8: for every submission, the handler constructs the task that
enters the core with the caller-supplied payload and priority, the
freshly generated id, and retry count exactly 0, pushes it onto the
queue, and answers `202 Accepted`. -/
theorem submission_boundary (q : PriorityQueue) (new_id : Uuid)
    (body : CreateTaskPayload) :
    (create_task q new_id body).1.tasks =
      (⟨new_id, body.payload, body.priority, 0⟩ : Task) ::ₘ q.tasks ∧
    (create_task q new_id body).2 = StatusCode.accepted :=
  ⟨PriorityQueue.push_tasks q _, rfl⟩

/-- C10: popping a fresh queue signals empty; pushing any task onto the
empty queue and popping returns exactly that task, all fields unchanged,
and leaves the queue empty again, so a further pop signals empty. -/
theorem push_pop_roundtrip :
    PriorityQueue.new.pop = (none, PriorityQueue.new) ∧
    ∀ t : Task, (PriorityQueue.new.push t).pop = (some t, PriorityQueue.new) :=
  ⟨rfl, fun _ => rfl⟩

end WebServer
